import Mathlib

/-!
Verification of `bugfender/s3-version-restore`.

Shallow embedding of the program:
* the restore decision loop of `main` (main.go): `scanVersions`, `restoreAction`;
* the version map of `s3/client.go`: `ObjectVersionMap` with `Add`;
* the paginated listing iterator of `s3/client.go`: `ListIterator` with `Next`,
  `firstMapKey`, and a fuel-driven `drain`.

Go `time.Time` values are modelled as `Int`, with `Before` as `<` and `Equal`
as `=`.  Go's `OperationType` is a string type, kept as `String` here so that
the zero value (the empty string, used by `ZeroObjectVersion`) is expressible.
-/

namespace S3VR

/-- Constant `OperationTypePut` from `s3/client.go`. -/
def OperationTypePut : String := "PUT"

/-- Constant `OperationTypeDelete` from `s3/client.go`. -/
def OperationTypeDelete : String := "DELETE"

/-- Structure `ObjectVersion` from `s3/client.go`. -/
structure ObjectVersion where
  VersionID : String
  Operation : String
  Timestamp : Int
  IsLatest  : Bool
  ETag      : String
deriving DecidableEq

/-- Value `ZeroObjectVersion` from `s3/client.go`: the Go zero value of
`ObjectVersion` (empty strings, zero time, false). -/
def ZeroObjectVersion : ObjectVersion :=
  { VersionID := "", Operation := "", Timestamp := 0, IsLatest := false, ETag := "" }

/-- The scanning loop of `main` (main.go lines 95-104): one pass over the
key's versions computing `versionAtTimestamp` (last record whose timestamp is
before the reference timestamp) and `latestVersion` (last record with
`IsLatest`), both starting from the zero value. -/
def scanVersions (versions : List ObjectVersion) (referenceTimestamp : Int) :
    ObjectVersion × ObjectVersion :=
  versions.foldl
    (fun acc v =>
      (if v.Timestamp < referenceTimestamp then v else acc.1,
       if v.IsLatest then v else acc.2))
    (ZeroObjectVersion, ZeroObjectVersion)

/-- The three outcomes of the decision step of `main`: skip the key, delete the
current version (appending a delete marker), or copy a historical version on
top (restoring it). -/
inductive Action where
  | Skip : Action
  | LogicalDelete : Action
  | PromoteVersion : String → Action
deriving DecidableEq

/-- The decision chain of `main` (main.go lines 106-131): skip when the latest
record's etag equals the etag at the reference time; otherwise delete when the
version at the reference time is the zero value or a delete marker; otherwise
copy (promote) the version at the reference time. -/
def restoreAction (versions : List ObjectVersion) (referenceTimestamp : Int) : Action :=
  let versionAtTimestamp := (scanVersions versions referenceTimestamp).1
  let latestVersion := (scanVersions versions referenceTimestamp).2
  if latestVersion.ETag = versionAtTimestamp.ETag then
    Action.Skip
  else if versionAtTimestamp = ZeroObjectVersion ∨
      versionAtTimestamp.Operation = OperationTypeDelete then
    Action.LogicalDelete
  else
    Action.PromoteVersion versionAtTimestamp.VersionID

/-- Written from the words of the spec (§4.2 step 1): `versionAtReference` is
the last record of the history whose timestamp is strictly before the
reference timestamp, and the absent sentinel (the zero `ObjectVersion`) when
no record's timestamp is strictly before it. -/
def versionAtReferenceSpec (versions : List ObjectVersion) (referenceTimestamp : Int) :
    ObjectVersion :=
  match (versions.filter (fun v => decide (v.Timestamp < referenceTimestamp))).getLast? with
  | some v => v
  | none => ZeroObjectVersion

/-- Record transformation performed implicitly by both mutating gateway
operations: the previously latest records stop being latest once a new current
version is appended; all other fields are untouched. -/
def clearLatest (v : ObjectVersion) : ObjectVersion :=
  { v with IsLatest := false }

/-- Etag of the version of the history carrying a given version id (the
content the gateway's copy duplicates); the empty string when no such version
exists. -/
def etagOfVersionID (versions : List ObjectVersion) (vid : String) : String :=
  match versions.find? (fun v => decide (v.VersionID = vid)) with
  | some v => v.ETag
  | none => ""

/-- Modelled from the spec: the effect on one key's version history of the
two storage-gateway mutations invoked by `main` (`Client.Delete` and
`Client.Copy` of `s3/client.go` call the backend; the backend semantics is
external to the repository).  Per spec §6, `deleteCurrentVersion` "inserts a
delete marker as the new current version" and `copyVersion` "creates a new
current version of `key` with the content of `sourceVersionID`"; both append
to history, the prior records merely losing `IsLatest`. -/
def applyAction (versions : List ObjectVersion) (a : Action)
    (newTimestamp : Int) (newVersionID : String) : List ObjectVersion :=
  match a with
  | Action.Skip => versions
  | Action.LogicalDelete =>
      versions.map clearLatest ++
        [{ VersionID := newVersionID, Operation := OperationTypeDelete,
           Timestamp := newTimestamp, IsLatest := true, ETag := "" }]
  | Action.PromoteVersion vid =>
      versions.map clearLatest ++
        [{ VersionID := newVersionID, Operation := OperationTypePut,
           Timestamp := newTimestamp, IsLatest := true,
           ETag := etagOfVersionID versions vid }]

/-- One pass of `main` over one key: decide, then apply the decided mutation
to the history (`newTimestamp`, `newVersionID` being backend-assigned for the
created version, if any). -/
def restoreStep (versions : List ObjectVersion) (referenceTimestamp : Int)
    (newTimestamp : Int) (newVersionID : String) : List ObjectVersion :=
  applyAction versions (restoreAction versions referenceTimestamp) newTimestamp newVersionID

/-- The argument `main` passes as the listing filter: main.go parses the
command-line flag value into a local variable and then calls
`s3Client.List(ctx, bucket, nil)` — the parsed value is not forwarded, the
filter argument is always `nil`. -/
def mainListPfxArg (_pfxFlag : String) : Option String := none

/-- Stable insertion of a record into a timestamp-sorted list: the new record
lands after every record whose timestamp is not greater. -/
def insertByTimestamp (v : ObjectVersion) : List ObjectVersion → List ObjectVersion
  | [] => [v]
  | w :: t =>
    if w.Timestamp ≤ v.Timestamp then w :: insertByTimestamp v t else v :: w :: t

/-- Model of the `slices.SortFunc` call of `ObjectVersionMap.Add`
(`s3/client.go` lines 86-93): sort ascending by the comparator, which orders
records by `Timestamp` via `Before`/`Equal`.  Go's `slices.SortFunc` promises
the comparator order but not the relative order of ties; the model uses an
insertion sort, one concrete sort satisfying that contract. -/
def sortByTimestamp (l : List ObjectVersion) : List ObjectVersion :=
  l.foldr insertByTimestamp []

/-- Type `ObjectVersionMap` from `s3/client.go`, a Go map from key to version
slice, modelled as an association list whose keys are kept distinct. -/
abbrev ObjectVersionMap : Type := List (String × List ObjectVersion)

/-- Empty map (`make(ObjectVersionMap)`). -/
def ObjectVersionMap.empty : ObjectVersionMap := []

/-- Number of distinct keys of the map (`len` of a Go map). -/
def ObjectVersionMap.size (m : ObjectVersionMap) : Nat :=
  (m : List (String × List ObjectVersion)).length

/-- Map lookup (`m[key]` with its `found` flag). -/
def ObjectVersionMap.findSlice : ObjectVersionMap → String → Option (List ObjectVersion)
  | [], _ => none
  | (k', sl) :: rest, k =>
    if k' = k then some sl else ObjectVersionMap.findSlice rest k

/-- Map index read defaulting to the zero value (`m[key]` used as a value). -/
def ObjectVersionMap.sliceD (m : ObjectVersionMap) (k : String) : List ObjectVersion :=
  (m.findSlice k).getD []

/-- Map store (`m[key] = sl`): replaces the slice when the key is present,
adds the binding otherwise. -/
def ObjectVersionMap.setSlice : ObjectVersionMap → String → List ObjectVersion → ObjectVersionMap
  | [], k, sl => [(k, sl)]
  | (k', sl') :: rest, k, sl =>
    if k' = k then (k, sl) :: rest
    else (k', sl') :: ObjectVersionMap.setSlice rest k sl

/-- Map key removal (`delete(m, key)`). -/
def ObjectVersionMap.eraseKey (m : ObjectVersionMap) (k : String) : ObjectVersionMap :=
  (m : List (String × List ObjectVersion)).filter (fun e => decide (e.1 ≠ k))

/-- Keys of the map. -/
def ObjectVersionMap.keys (m : ObjectVersionMap) : List String :=
  (m : List (String × List ObjectVersion)).map Prod.fst

/-- Method `ObjectVersionMap.Add` from `s3/client.go`: fetch the key's slice
(empty when absent), append the new record, re-sort by timestamp with the
`Before`/`Equal` comparator, store the result back. -/
def ObjectVersionMap.Add (m : ObjectVersionMap) (key : String) (versionID : String)
    (operation : String) (timestamp : Int) (isLatest : Bool) (etag : String) :
    ObjectVersionMap :=
  let sl :=
    match m.findSlice key with
    | some s => s
    | none => []
  m.setSlice key
    (sortByTimestamp (sl ++
      [{ VersionID := versionID, Operation := operation, Timestamp := timestamp,
         IsLatest := isLatest, ETag := etag }]))

/-- Entry of the `Versions` array of one `ListObjectVersions` page. -/
structure VersionEntry where
  Key : String
  VersionId : String
  LastModified : Int
  IsLatest : Bool
  ETag : String
deriving DecidableEq

/-- Entry of the `DeleteMarkers` array of one `ListObjectVersions` page
(delete markers carry no etag). -/
structure DeleteMarkerEntry where
  Key : String
  VersionId : String
  LastModified : Int
  IsLatest : Bool
deriving DecidableEq

/-- One page returned by the backend's `ListObjectVersions`. -/
structure Page where
  Versions : List VersionEntry
  DeleteMarkers : List DeleteMarkerEntry
deriving DecidableEq

/-- Key and record a `Versions` entry contributes: `Next` adds it with
operation `OperationTypePut` and the entry's etag (`s3/client.go` line 141). -/
def VersionEntry.toEntry (v : VersionEntry) : String × ObjectVersion :=
  (v.Key,
   { VersionID := v.VersionId, Operation := OperationTypePut,
     Timestamp := v.LastModified, IsLatest := v.IsLatest, ETag := v.ETag })

/-- Key and record a `DeleteMarkers` entry contributes: `Next` adds it with
operation `OperationTypeDelete` and an empty etag (`s3/client.go` line 144). -/
def DeleteMarkerEntry.toEntry (d : DeleteMarkerEntry) : String × ObjectVersion :=
  (d.Key,
   { VersionID := d.VersionId, Operation := OperationTypeDelete,
     Timestamp := d.LastModified, IsLatest := d.IsLatest, ETag := "" })

/-- Add calls `Next` performs for one fetched page, in source order: all
`Versions` entries, then all `DeleteMarkers` entries. -/
def Page.entries (p : Page) : List (String × ObjectVersion) :=
  p.Versions.map VersionEntry.toEntry ++ p.DeleteMarkers.map DeleteMarkerEntry.toEntry

/-- One `Add` call of the page-storing loops of `Next`. -/
def addEntry (m : ObjectVersionMap) (e : String × ObjectVersion) : ObjectVersionMap :=
  m.Add e.1 e.2.VersionID e.2.Operation e.2.Timestamp e.2.IsLatest e.2.ETag

/-- Storing one fetched page into the pending map (`s3/client.go` lines
139-145). -/
def addPage (m : ObjectVersionMap) (p : Page) : ObjectVersionMap :=
  p.entries.foldl addEntry m

/-- Lexicographic order on character lists by code point, matching the
byte-wise order Go's `slices.Sort` uses on keys (UTF-8 byte order agrees with
code-point order). -/
def keyLeB : List Char → List Char → Bool
  | [], _ => true
  | _ :: _, [] => false
  | a :: as, b :: bs =>
    if a.toNat < b.toNat then true
    else if b.toNat < a.toNat then false
    else keyLeB as bs

/-- Lexicographic order on keys. -/
abbrev strLe (a b : String) : Prop := keyLeB a.data b.data = true

instance (a b : String) : Decidable (strLe a b) :=
  inferInstanceAs (Decidable (keyLeB a.data b.data = true))

/-- Strict lexicographic order on keys. -/
abbrev strLt (a b : String) : Prop := strLe a b ∧ a ≠ b

/-- Smaller of two keys under the lexicographic order. -/
def minKey (a b : String) : String := if keyLeB a.data b.data then a else b

/-- Function `firstMapKey` from `s3/client.go`: sort the keys ascending and
take the first, i.e. the minimum.  Go panics on an empty map; the caller
guards, so the empty-map sentinel here is never reached in use. -/
def firstMapKey (m : ObjectVersionMap) : String :=
  match m.keys with
  | [] => ""
  | k :: ks => ks.foldl minKey k

/-- Structure `ListIterator` from `s3/client.go`.  The backend and its two
cursors are modelled by the list of not-yet-fetched pages; the `loadMore`
flag of the source corresponds to that list being nonempty (an honest backend
reports `IsTruncated` exactly while later pages exist). -/
structure ListIterator where
  pages : List Page
  pending : ObjectVersionMap
deriving DecidableEq

/-- Fetch loop of `Next` (`s3/client.go` lines 122-146): while more pages
remain and the pending map holds at most one key, fetch the next page and
store its records. -/
def fetchLoop : List Page → ObjectVersionMap → List Page × ObjectVersionMap
  | [], m => ([], m)
  | p :: rest, m =>
    if m.size ≤ 1 then fetchLoop rest (addPage m p) else (p :: rest, m)

/-- Method `ListIterator.Next` from `s3/client.go`: run the fetch loop; when
the pending map is empty, signal end of sequence (`io.EOF`, here `none`);
otherwise emit the smallest pending key with its slice and delete it. -/
def ListIterator.Next (it : ListIterator) :
    Option (String × List ObjectVersion) × ListIterator :=
  let fm := fetchLoop it.pages it.pending
  if fm.2.size = 0 then
    (none, { pages := fm.1, pending := fm.2 })
  else
    let key := firstMapKey fm.2
    (some (key, fm.2.sliceD key), { pages := fm.1, pending := fm.2.eraseKey key })

/-- Upper bound on the number of `Next` calls a drain can take: every call
either consumes a page (together with its entries) or removes a pending key. -/
def ListIterator.fuel (it : ListIterator) : Nat :=
  (it.pages.map (fun p => p.entries.length)).sum + it.pages.length + it.pending.size

/-- Repeatedly call `Next`, collecting the emitted pairs, for at most the
given number of calls. -/
def drainFuel : Nat → ListIterator → List (String × List ObjectVersion)
  | 0, _ => []
  | Nat.succ n, it =>
    match it.Next with
    | (none, _) => []
    | (some kv, it') => kv :: drainFuel n it'

/-- The full emitted sequence of the iterator: the loop of `main`, calling
`Next` until `io.EOF`. -/
def ListIterator.drain (it : ListIterator) : List (String × List ObjectVersion) :=
  drainFuel it.fuel it

/-- All Add calls contributed by a list of pages, in fetch order. -/
def pagesEntries (pages : List Page) : List (String × ObjectVersion) :=
  (pages.map Page.entries).flatten

/-- Keys occurring in a list of pages. -/
def pagesKeys (pages : List Page) : List String :=
  (pagesEntries pages).map Prod.fst

/-- Records a list of pages holds for one key, in fetch order. -/
def recordsOf (pages : List Page) (k : String) : List ObjectVersion :=
  ((pagesEntries pages).filter (fun e => decide (e.1 = k))).map Prod.snd

/-- Backend ordering contract (spec §4.1): the listing is sorted by key, so
every record of an earlier page has a key not above every record of a later
page. -/
abbrev PagesSorted (pages : List Page) : Prop :=
  pages.Pairwise (fun p q => ∀ a ∈ p.entries, ∀ b ∈ q.entries, strLe a.1 b.1)

/-- Non-decreasing timestamps, the sort order `Add` maintains. -/
abbrev SortedTs (l : List ObjectVersion) : Prop :=
  l.Pairwise (fun a b => a.Timestamp ≤ b.Timestamp)

/-- Every slice stored in the map is sorted by timestamp. -/
abbrev SortedSlices (m : ObjectVersionMap) : Prop :=
  ∀ k, SortedTs (m.sliceD k)

/-- Every pending key is lexicographically at most every key still to arrive
from a later page. -/
abbrev KeysBounded (m : ObjectVersionMap) (pages : List Page) : Prop :=
  ∀ k ∈ m.keys, ∀ b ∈ pagesEntries pages, strLe k b.1

/-- State invariant of the iterator: distinct pending keys, the backend key
ordering on the remaining pages, pending keys below all future keys, and
timestamp-sorted pending slices. -/
abbrev IterInv (it : ListIterator) : Prop :=
  it.pending.keys.Nodup ∧ PagesSorted it.pages ∧
    KeysBounded it.pending it.pages ∧ SortedSlices it.pending

/-- A sequence of `Add` calls applied to the empty map, each call given as
the `(key, record)` pair of its arguments. -/
def applyAdds (calls : List (String × ObjectVersion)) : ObjectVersionMap :=
  calls.foldl addEntry ObjectVersionMap.empty

/-- Concrete two-page listing exercising the iterator: key "a" spans the page
boundary, key "b" completes in the second page. -/
def samplePages : List Page :=
  [{ Versions :=
      [{ Key := "a", VersionId := "v1", LastModified := 1, IsLatest := false, ETag := "x" }],
     DeleteMarkers := [] },
   { Versions :=
      [{ Key := "a", VersionId := "v2", LastModified := 2, IsLatest := true, ETag := "y" },
       { Key := "b", VersionId := "v3", LastModified := 3, IsLatest := true, ETag := "z" }],
     DeleteMarkers := [] }]

/-- The records of `samplePages` delivered as a single page. -/
def samplePagesOne : List Page :=
  [{ Versions :=
      [{ Key := "a", VersionId := "v1", LastModified := 1, IsLatest := false, ETag := "x" },
       { Key := "a", VersionId := "v2", LastModified := 2, IsLatest := true, ETag := "y" }],
     DeleteMarkers := [] }]

/-- The records of `samplePagesOne` split across two pages. -/
def samplePagesTwo : List Page :=
  [{ Versions :=
      [{ Key := "a", VersionId := "v1", LastModified := 1, IsLatest := false, ETag := "x" }],
     DeleteMarkers := [] },
   { Versions :=
      [{ Key := "a", VersionId := "v2", LastModified := 2, IsLatest := true, ETag := "y" }],
     DeleteMarkers := [] }]

/-! Lemmas about the scanning loop of `main`. -/

theorem scanVersions_append (l : List ObjectVersion) (w : ObjectVersion) (ref : Int) :
    scanVersions (l ++ [w]) ref =
      ((if w.Timestamp < ref then w else (scanVersions l ref).1),
       (if w.IsLatest then w else (scanVersions l ref).2)) := by
  unfold scanVersions
  rw [List.foldl_append, List.foldl_cons, List.foldl_nil]

theorem scan_fst_eq_spec (l : List ObjectVersion) (ref : Int) :
    (scanVersions l ref).1 = versionAtReferenceSpec l ref := by
  induction l using List.reverseRecOn with
  | nil => rfl
  | append_singleton l w ih =>
    rw [scanVersions_append]
    unfold versionAtReferenceSpec at ih ⊢
    rw [List.filter_append]
    by_cases h : w.Timestamp < ref
    · simp [h, List.getLast?_concat]
    · simp [h, ih]

theorem scan_fst_cases (l : List ObjectVersion) (ref : Int) :
    (scanVersions l ref).1 = ZeroObjectVersion ∨
      ((scanVersions l ref).1 ∈ l ∧ (scanVersions l ref).1.Timestamp < ref) := by
  induction l using List.reverseRecOn with
  | nil => exact Or.inl rfl
  | append_singleton l w ih =>
    rw [scanVersions_append]
    by_cases h : w.Timestamp < ref
    · exact Or.inr (by simp [h])
    · rcases ih with h0 | ⟨hmem, ht⟩
      · exact Or.inl (by simp [h, h0])
      · exact Or.inr (by simp [h]; exact ⟨Or.inl hmem, ht⟩)

theorem scan_snd_unique (l : List ObjectVersion) (ref : Int) (c : ObjectVersion)
    (hc : c ∈ l) (hlat : c.IsLatest = true)
    (huniq : ∀ v ∈ l, v.IsLatest = true → v = c) :
    (scanVersions l ref).2 = c := by
  induction l using List.reverseRecOn with
  | nil => cases hc
  | append_singleton l w ih =>
    rw [scanVersions_append]
    by_cases hw : w.IsLatest = true
    · simpa [hw] using huniq w (by simp) hw
    · simp only [hw]
      simp only [Bool.false_eq_true, if_false]
      rcases List.mem_append.mp hc with hcl | hcw
      · exact ih hcl (fun v hv hl => huniq v (List.mem_append_left _ hv) hl)
      · rw [List.mem_singleton.mp hcw] at hlat
        exact absurd hlat hw

theorem scan_fst_map_clearLatest (l : List ObjectVersion) (ref : Int) :
    (scanVersions (l.map clearLatest) ref).1 = clearLatest (scanVersions l ref).1 := by
  induction l using List.reverseRecOn with
  | nil => rfl
  | append_singleton l w ih =>
    rw [List.map_append, List.map_singleton, scanVersions_append, scanVersions_append]
    by_cases h : w.Timestamp < ref
    · simp [clearLatest, h]
    · simp [clearLatest, h, ih]

theorem etagOfVersionID_eq (l : List ObjectVersion) (w : ObjectVersion)
    (huniq : l.Pairwise (fun a b => a.VersionID ≠ b.VersionID)) (hmem : w ∈ l) :
    etagOfVersionID l w.VersionID = w.ETag := by
  induction l with
  | nil => cases hmem
  | cons v t ih =>
    rcases List.pairwise_cons.mp huniq with ⟨hv, ht⟩
    unfold etagOfVersionID
    by_cases h : v.VersionID = w.VersionID
    · rw [List.find?_cons_of_pos _ (by simpa using h)]
      rcases List.mem_cons.mp hmem with hw | hw
      · rw [hw]
      · exact absurd h (hv w hw)
    · rw [List.find?_cons_of_neg _ (by simpa using h)]
      rcases List.mem_cons.mp hmem with hw | hw
      · exact absurd (hw ▸ rfl) h
      · exact ih ht hw

theorem restoreAction_append_skip (versions : List ObjectVersion) (ref : Int)
    (nv : ObjectVersion) (hts : ¬ (nv.Timestamp < ref)) (hlat : nv.IsLatest = true)
    (het : nv.ETag = ((scanVersions versions ref).1).ETag) :
    restoreAction (versions.map clearLatest ++ [nv]) ref = Action.Skip := by
  simp only [restoreAction]
  rw [scanVersions_append]
  simp only [hts, if_false, hlat, if_true]
  rw [scan_fst_map_clearLatest]
  have hcl : (clearLatest ((scanVersions versions ref).1)).ETag =
      ((scanVersions versions ref).1).ETag := rfl
  rw [if_pos (by rw [hcl]; exact het)]

/-! Theorems for the claims about the restore decision engine. -/

/-- C2: for every version history and reference timestamp, the decision
step's `versionAtTimestamp` equals the last record of the history whose
timestamp is strictly before the reference timestamp, and the zero
`ObjectVersion` sentinel when no record is strictly before it (the two cases
of `versionAtReferenceSpec`, written from the spec's words).  Proved for all
histories, in particular the timestamp-sorted ones of the claim. -/
theorem claim_C2_version_at_reference (versions : List ObjectVersion)
    (referenceTimestamp : Int) :
    (scanVersions versions referenceTimestamp).1 =
      versionAtReferenceSpec versions referenceTimestamp :=
  scan_fst_eq_spec versions referenceTimestamp

/-- C3: when the etag of the (unique) record with `IsLatest` set equals the
etag of the version at the reference time — the absent sentinel carrying the
empty etag — the program issues `Skip` for the key; in particular two delete
markers, both with empty etags, compare equal and yield `Skip`. -/
theorem claim_C3_skip_condition (versions : List ObjectVersion)
    (referenceTimestamp : Int) (c : ObjectVersion) (hc : c ∈ versions)
    (hlat : c.IsLatest = true) (huniq : ∀ v ∈ versions, v.IsLatest = true → v = c)
    (hetag : c.ETag = (versionAtReferenceSpec versions referenceTimestamp).ETag) :
    restoreAction versions referenceTimestamp = Action.Skip := by
  have h2 := scan_snd_unique versions referenceTimestamp c hc hlat huniq
  have h1 := scan_fst_eq_spec versions referenceTimestamp
  simp only [restoreAction]
  rw [h1, h2, if_pos hetag]

theorem claim_C3_skip_condition_witness :
    restoreAction
      [{ VersionID := "v1", Operation := "PUT", Timestamp := 0, IsLatest := false, ETag := "a" },
       { VersionID := "v2", Operation := "PUT", Timestamp := 2, IsLatest := true, ETag := "a" }] 1
      = Action.Skip :=
  claim_C3_skip_condition _ 1
    { VersionID := "v2", Operation := "PUT", Timestamp := 2, IsLatest := true, ETag := "a" }
    (by decide) (by decide) (by decide) (by decide)

/-- C4: when the unique latest record's etag differs from the etag at the
reference time, the decision is `LogicalDelete` (invoking the gateway's
delete) when the version at the reference time is absent or a delete marker,
and otherwise `PromoteVersion` of that version's id (invoking the gateway's
copy with that version as source); and under the spec-modelled gateway
semantics no branch erases or overwrites an existing version — every prior
record survives, `IsLatest` flag aside. -/
theorem claim_C4_mutation_choice (versions : List ObjectVersion)
    (referenceTimestamp : Int) (c : ObjectVersion) (hc : c ∈ versions)
    (hlat : c.IsLatest = true) (huniq : ∀ v ∈ versions, v.IsLatest = true → v = c)
    (hne : c.ETag ≠ (versionAtReferenceSpec versions referenceTimestamp).ETag) :
    ((versionAtReferenceSpec versions referenceTimestamp = ZeroObjectVersion ∨
        (versionAtReferenceSpec versions referenceTimestamp).Operation = OperationTypeDelete) →
      restoreAction versions referenceTimestamp = Action.LogicalDelete) ∧
    ((versionAtReferenceSpec versions referenceTimestamp ≠ ZeroObjectVersion ∧
        (versionAtReferenceSpec versions referenceTimestamp).Operation ≠ OperationTypeDelete) →
      restoreAction versions referenceTimestamp =
        Action.PromoteVersion (versionAtReferenceSpec versions referenceTimestamp).VersionID) ∧
    (∀ a newTimestamp newVersionID, ∀ v ∈ versions,
      clearLatest v ∈ (applyAction versions a newTimestamp newVersionID).map clearLatest) := by
  have h2 := scan_snd_unique versions referenceTimestamp c hc hlat huniq
  have h1 := scan_fst_eq_spec versions referenceTimestamp
  refine ⟨?_, ?_, ?_⟩
  · intro hcase
    simp only [restoreAction]
    rw [h1, h2, if_neg hne, if_pos hcase]
  · intro hcase
    simp only [restoreAction]
    rw [h1, h2, if_neg hne, if_neg (not_or.mpr ⟨hcase.1, hcase.2⟩)]
  · intro a newTimestamp newVersionID v hv
    cases a with
    | Skip => exact List.mem_map_of_mem clearLatest hv
    | LogicalDelete =>
      rw [applyAction, List.map_append, List.map_map]
      exact List.mem_append_left _ (List.mem_map.mpr ⟨v, hv, rfl⟩)
    | PromoteVersion vid =>
      rw [applyAction, List.map_append, List.map_map]
      exact List.mem_append_left _ (List.mem_map.mpr ⟨v, hv, rfl⟩)

theorem claim_C4_mutation_choice_witness :
    ((versionAtReferenceSpec
        [{ VersionID := "v1", Operation := "PUT", Timestamp := 0, IsLatest := false, ETag := "a" },
         { VersionID := "v2", Operation := "PUT", Timestamp := 2, IsLatest := true, ETag := "b" }] 1
        = ZeroObjectVersion ∨
      (versionAtReferenceSpec
        [{ VersionID := "v1", Operation := "PUT", Timestamp := 0, IsLatest := false, ETag := "a" },
         { VersionID := "v2", Operation := "PUT", Timestamp := 2, IsLatest := true, ETag := "b" }] 1).Operation
        = OperationTypeDelete) →
      restoreAction
        [{ VersionID := "v1", Operation := "PUT", Timestamp := 0, IsLatest := false, ETag := "a" },
         { VersionID := "v2", Operation := "PUT", Timestamp := 2, IsLatest := true, ETag := "b" }] 1
        = Action.LogicalDelete) ∧
    ((versionAtReferenceSpec
        [{ VersionID := "v1", Operation := "PUT", Timestamp := 0, IsLatest := false, ETag := "a" },
         { VersionID := "v2", Operation := "PUT", Timestamp := 2, IsLatest := true, ETag := "b" }] 1
        ≠ ZeroObjectVersion ∧
      (versionAtReferenceSpec
        [{ VersionID := "v1", Operation := "PUT", Timestamp := 0, IsLatest := false, ETag := "a" },
         { VersionID := "v2", Operation := "PUT", Timestamp := 2, IsLatest := true, ETag := "b" }] 1).Operation
        ≠ OperationTypeDelete) →
      restoreAction
        [{ VersionID := "v1", Operation := "PUT", Timestamp := 0, IsLatest := false, ETag := "a" },
         { VersionID := "v2", Operation := "PUT", Timestamp := 2, IsLatest := true, ETag := "b" }] 1
        = Action.PromoteVersion
            (versionAtReferenceSpec
              [{ VersionID := "v1", Operation := "PUT", Timestamp := 0, IsLatest := false, ETag := "a" },
               { VersionID := "v2", Operation := "PUT", Timestamp := 2, IsLatest := true, ETag := "b" }] 1).VersionID) ∧
    (∀ a newTimestamp newVersionID, ∀ v ∈
        [{ VersionID := "v1", Operation := "PUT", Timestamp := 0, IsLatest := false, ETag := "a" },
         { VersionID := "v2", Operation := "PUT", Timestamp := 2, IsLatest := true, ETag := "b" }],
      clearLatest v ∈
        (applyAction
          [{ VersionID := "v1", Operation := "PUT", Timestamp := 0, IsLatest := false, ETag := "a" },
           { VersionID := "v2", Operation := "PUT", Timestamp := 2, IsLatest := true, ETag := "b" }]
          a newTimestamp newVersionID).map clearLatest) :=
  claim_C4_mutation_choice _ 1
    { VersionID := "v2", Operation := "PUT", Timestamp := 2, IsLatest := true, ETag := "b" }
    (by decide) (by decide) (by decide) (by decide)

/-- C10: when the unique latest record is a delete marker (operation
`DELETE`, empty etag) and the version at the reference time is the absent
sentinel or itself a delete marker, the empty etags compare equal, the
program returns `Skip`, and no mutation (neither delete nor copy) changes the
history. -/
theorem claim_C10_deleted_absent_equivalent (versions : List ObjectVersion)
    (referenceTimestamp : Int) (c : ObjectVersion) (hc : c ∈ versions)
    (hlat : c.IsLatest = true) (huniq : ∀ v ∈ versions, v.IsLatest = true → v = c)
    (hmop : c.Operation = OperationTypeDelete) (hmet : c.ETag = "")
    (hvat : versionAtReferenceSpec versions referenceTimestamp = ZeroObjectVersion ∨
      ((versionAtReferenceSpec versions referenceTimestamp).Operation = OperationTypeDelete ∧
        (versionAtReferenceSpec versions referenceTimestamp).ETag = "")) :
    restoreAction versions referenceTimestamp = Action.Skip ∧
    ∀ newTimestamp newVersionID,
      applyAction versions (restoreAction versions referenceTimestamp)
        newTimestamp newVersionID = versions := by
  have hve : (versionAtReferenceSpec versions referenceTimestamp).ETag = "" := by
    rcases hvat with hz | ⟨_, he⟩
    · rw [hz]; rfl
    · exact he
  have hskip : restoreAction versions referenceTimestamp = Action.Skip := by
    have h2 := scan_snd_unique versions referenceTimestamp c hc hlat huniq
    have h1 := scan_fst_eq_spec versions referenceTimestamp
    simp only [restoreAction]
    rw [h1, h2, if_pos (by rw [hmet, hve])]
  exact ⟨hskip, fun newTimestamp newVersionID => by rw [hskip]; rfl⟩

theorem claim_C10_deleted_absent_equivalent_witness :
    restoreAction
      [{ VersionID := "v1", Operation := "DELETE", Timestamp := 5, IsLatest := true, ETag := "" }] 1
      = Action.Skip ∧
    ∀ newTimestamp newVersionID,
      applyAction
        [{ VersionID := "v1", Operation := "DELETE", Timestamp := 5, IsLatest := true, ETag := "" }]
        (restoreAction
          [{ VersionID := "v1", Operation := "DELETE", Timestamp := 5, IsLatest := true, ETag := "" }] 1)
        newTimestamp newVersionID
      = [{ VersionID := "v1", Operation := "DELETE", Timestamp := 5, IsLatest := true, ETag := "" }] :=
  claim_C10_deleted_absent_equivalent _ 1
    { VersionID := "v1", Operation := "DELETE", Timestamp := 5, IsLatest := true, ETag := "" }
    (by decide) (by decide) (by decide) (by decide) (by decide) (by decide)

/-- C1: idempotence of decide-and-mutate.  For a history whose delete markers
carry empty etags and whose version ids are distinct, and a reference
timestamp strictly earlier than the timestamp of the version a mutation would
create, applying the decided mutation and deciding again yields `Skip`. -/
theorem claim_C1_restore_idempotent (versions : List ObjectVersion)
    (referenceTimestamp newTimestamp : Int) (newVersionID : String)
    (hdel : ∀ v ∈ versions, v.Operation = OperationTypeDelete → v.ETag = "")
    (huniq : versions.Pairwise (fun a b => a.VersionID ≠ b.VersionID))
    (href : referenceTimestamp < newTimestamp) :
    restoreAction
      (restoreStep versions referenceTimestamp newTimestamp newVersionID)
      referenceTimestamp = Action.Skip := by
  have hnts : ¬ (newTimestamp < referenceTimestamp) := by omega
  by_cases h1 : ((scanVersions versions referenceTimestamp).2).ETag =
      ((scanVersions versions referenceTimestamp).1).ETag
  · have hact : restoreAction versions referenceTimestamp = Action.Skip := by
      simp only [restoreAction]; rw [if_pos h1]
    unfold restoreStep
    rw [hact]
    exact hact
  · by_cases h2 : (scanVersions versions referenceTimestamp).1 = ZeroObjectVersion ∨
        ((scanVersions versions referenceTimestamp).1).Operation = OperationTypeDelete
    · have hact : restoreAction versions referenceTimestamp = Action.LogicalDelete := by
        simp only [restoreAction]; rw [if_neg h1, if_pos h2]
      unfold restoreStep
      rw [hact]
      apply restoreAction_append_skip versions referenceTimestamp _ hnts rfl
      show "" = ((scanVersions versions referenceTimestamp).1).ETag
      rcases scan_fst_cases versions referenceTimestamp with hz | ⟨hm, _⟩
      · rw [hz]; rfl
      · rcases h2 with hz2 | hop
        · rw [hz2]; rfl
        · exact (hdel _ hm hop).symm
    · have hact : restoreAction versions referenceTimestamp =
          Action.PromoteVersion ((scanVersions versions referenceTimestamp).1).VersionID := by
        simp only [restoreAction]; rw [if_neg h1, if_neg h2]
      unfold restoreStep
      rw [hact]
      apply restoreAction_append_skip versions referenceTimestamp _ hnts rfl
      show etagOfVersionID versions ((scanVersions versions referenceTimestamp).1).VersionID =
        ((scanVersions versions referenceTimestamp).1).ETag
      rcases scan_fst_cases versions referenceTimestamp with hz | ⟨hm, _⟩
      · exact absurd hz (fun h => h2 (Or.inl h))
      · exact etagOfVersionID_eq versions _ huniq hm

theorem claim_C1_restore_idempotent_witness :
    restoreAction
      (restoreStep
        [{ VersionID := "v1", Operation := "PUT", Timestamp := 0, IsLatest := false, ETag := "a" },
         { VersionID := "v2", Operation := "PUT", Timestamp := 2, IsLatest := true, ETag := "b" }]
        1 5 "v3") 1 = Action.Skip :=
  claim_C1_restore_idempotent _ 1 5 "v3" (by decide) (by decide) (by decide)

/-- C5: the claim fails on the code.  The command-line flag for a key filter
is parsed by `main` but never forwarded: the listing call always receives
`nil` (`mainListPfxArg` evaluates to `none` whatever the flag value), so the
scan covers every key of the bucket; with the filter flag set to "a/", the
iterator still emits the key "b/y", which does not begin with "a/", and that
key is then considered for mutation. -/
theorem claim_C5_pfx_flag_dropped :
    mainListPfxArg "a/" = none ∧
    (ListIterator.drain
      { pages :=
          [{ Versions :=
              [{ Key := "a/x", VersionId := "v1", LastModified := 1, IsLatest := true, ETag := "e1" },
               { Key := "b/y", VersionId := "v2", LastModified := 2, IsLatest := true, ETag := "e2" }],
             DeleteMarkers := [] }],
        pending := ObjectVersionMap.empty }).map Prod.fst = ["a/x", "b/y"] ∧
    ("b/y".data.take "a/".data.length = "a/".data) = False := by
  refine ⟨rfl, by decide, by decide⟩

/-! Lemmas about the per-key sort and the version map. -/

theorem insertByTimestamp_perm (v : ObjectVersion) (l : List ObjectVersion) :
    List.Perm (insertByTimestamp v l) (v :: l) := by
  induction l with
  | nil => rfl
  | cons w t ih =>
    rw [insertByTimestamp]
    by_cases h : w.Timestamp ≤ v.Timestamp
    · rw [if_pos h]
      exact ((ih.cons w).trans (List.Perm.swap v w t))
    · rw [if_neg h]

theorem sortByTimestamp_perm (l : List ObjectVersion) :
    List.Perm (sortByTimestamp l) l := by
  induction l with
  | nil => rfl
  | cons w t ih =>
    have hs : sortByTimestamp (w :: t) = insertByTimestamp w (sortByTimestamp t) := rfl
    rw [hs]
    exact (insertByTimestamp_perm w (sortByTimestamp t)).trans (ih.cons w)

theorem insertByTimestamp_sorted (v : ObjectVersion) (l : List ObjectVersion)
    (hl : SortedTs l) : SortedTs (insertByTimestamp v l) := by
  induction l with
  | nil => simp [insertByTimestamp]
  | cons w t ih =>
    rw [insertByTimestamp]
    rcases List.pairwise_cons.mp hl with ⟨hw, ht⟩
    by_cases h : w.Timestamp ≤ v.Timestamp
    · rw [if_pos h]
      refine List.pairwise_cons.mpr ⟨?_, ih ht⟩
      intro x hx
      rcases List.mem_cons.mp ((insertByTimestamp_perm v t).mem_iff.mp hx) with hxv | hxt
      · rw [hxv]; exact h
      · exact hw x hxt
    · rw [if_neg h]
      refine List.pairwise_cons.mpr ⟨?_, hl⟩
      intro x hx
      rcases List.mem_cons.mp hx with hxw | hxt
      · rw [hxw]; omega
      · have h1 := hw x hxt; omega

theorem sortByTimestamp_sorted (l : List ObjectVersion) : SortedTs (sortByTimestamp l) := by
  induction l with
  | nil => simp [sortByTimestamp, SortedTs]
  | cons w t ih => exact insertByTimestamp_sorted w (sortByTimestamp t) ih

theorem findSlice_setSlice_self (m : ObjectVersionMap) (k : String)
    (sl : List ObjectVersion) : (m.setSlice k sl).findSlice k = some sl := by
  induction m with
  | nil => simp [ObjectVersionMap.setSlice, ObjectVersionMap.findSlice]
  | cons e rest ih =>
    obtain ⟨k1, sl1⟩ := e
    rw [ObjectVersionMap.setSlice]
    by_cases h : k1 = k
    · rw [if_pos h, ObjectVersionMap.findSlice, if_pos rfl]
    · rw [if_neg h, ObjectVersionMap.findSlice, if_neg h]
      exact ih

theorem findSlice_setSlice_ne (m : ObjectVersionMap) (k k' : String)
    (sl : List ObjectVersion) (hne : k' ≠ k) :
    (m.setSlice k sl).findSlice k' = m.findSlice k' := by
  induction m with
  | nil =>
    have h : ¬ k = k' := fun h => hne h.symm
    rw [ObjectVersionMap.setSlice]
    simp [ObjectVersionMap.findSlice, h]
  | cons e rest ih =>
    obtain ⟨k1, sl1⟩ := e
    rw [ObjectVersionMap.setSlice]
    by_cases h : k1 = k
    · rw [if_pos h, ObjectVersionMap.findSlice, if_neg (fun hh => hne hh.symm),
        ObjectVersionMap.findSlice, if_neg (by rw [h]; exact fun hh => hne hh.symm)]
    · rw [if_neg h, ObjectVersionMap.findSlice, ObjectVersionMap.findSlice]
      by_cases h2 : k1 = k'
      · rw [if_pos h2, if_pos h2]
      · rw [if_neg h2, if_neg h2]
        exact ih

theorem keys_setSlice_mem (m : ObjectVersionMap) (k k' : String)
    (sl : List ObjectVersion) :
    k' ∈ (m.setSlice k sl).keys ↔ k' ∈ m.keys ∨ k' = k := by
  induction m with
  | nil => simp [ObjectVersionMap.setSlice, ObjectVersionMap.keys]
  | cons e rest ih =>
    obtain ⟨k1, sl1⟩ := e
    rw [ObjectVersionMap.setSlice]
    by_cases h : k1 = k
    · rw [if_pos h]
      simp only [ObjectVersionMap.keys, List.map_cons, List.mem_cons] at ih ⊢
      subst h
      tauto
    · rw [if_neg h]
      simp only [ObjectVersionMap.keys, List.map_cons, List.mem_cons] at ih ⊢
      rw [ih]
      tauto

theorem keys_setSlice_nodup (m : ObjectVersionMap) (k : String)
    (sl : List ObjectVersion) (hm : m.keys.Nodup) : (m.setSlice k sl).keys.Nodup := by
  induction m with
  | nil => simp [ObjectVersionMap.setSlice, ObjectVersionMap.keys]
  | cons e rest ih =>
    obtain ⟨k1, sl1⟩ := e
    simp only [ObjectVersionMap.keys, List.map_cons, List.nodup_cons] at hm
    rw [ObjectVersionMap.setSlice]
    by_cases h : k1 = k
    · rw [if_pos h]
      simp only [ObjectVersionMap.keys, List.map_cons, List.nodup_cons]
      exact ⟨by rw [← h]; exact hm.1, hm.2⟩
    · rw [if_neg h]
      simp only [ObjectVersionMap.keys, List.map_cons, List.nodup_cons]
      refine ⟨?_, ih hm.2⟩
      intro hmem
      rcases (keys_setSlice_mem rest k k1 sl).mp hmem with hh | hh
      · exact hm.1 hh
      · exact h hh

theorem size_setSlice (m : ObjectVersionMap) (k : String) (sl : List ObjectVersion) :
    (m.setSlice k sl).size = if k ∈ m.keys then m.size else m.size + 1 := by
  induction m with
  | nil => simp [ObjectVersionMap.setSlice, ObjectVersionMap.size, ObjectVersionMap.keys]
  | cons e rest ih =>
    obtain ⟨k1, sl1⟩ := e
    rw [ObjectVersionMap.setSlice]
    by_cases h : k1 = k
    · rw [if_pos h]
      simp [ObjectVersionMap.size, ObjectVersionMap.keys, h.symm]
    · rw [if_neg h]
      simp only [ObjectVersionMap.size, ObjectVersionMap.keys, List.map_cons,
        List.mem_cons, List.length_cons] at ih ⊢
      rw [ih]
      have hne : ¬ k = k1 := fun hh => h hh.symm
      by_cases h2 : k ∈ List.map Prod.fst rest
      · simp [h2, hne]
      · simp [h2, hne]

theorem eraseKey_cons (k1 : String) (sl1 : List ObjectVersion)
    (rest : ObjectVersionMap) (k : String) :
    ObjectVersionMap.eraseKey ((k1, sl1) :: rest) k =
      if k1 = k then ObjectVersionMap.eraseKey rest k
      else (k1, sl1) :: ObjectVersionMap.eraseKey rest k := by
  rw [ObjectVersionMap.eraseKey, List.filter_cons]
  by_cases h : k1 = k
  · simp [ObjectVersionMap.eraseKey, h]
  · simp [ObjectVersionMap.eraseKey, h]

theorem findSlice_eraseKey_self (m : ObjectVersionMap) (k : String) :
    (m.eraseKey k).findSlice k = none := by
  induction m with
  | nil => rfl
  | cons e rest ih =>
    obtain ⟨k1, sl1⟩ := e
    rw [eraseKey_cons]
    by_cases h : k1 = k
    · rw [if_pos h]
      exact ih
    · rw [if_neg h, ObjectVersionMap.findSlice, if_neg h]
      exact ih

theorem findSlice_eraseKey_ne (m : ObjectVersionMap) (k k' : String) (hne : k' ≠ k) :
    (m.eraseKey k).findSlice k' = m.findSlice k' := by
  induction m with
  | nil => rfl
  | cons e rest ih =>
    obtain ⟨k1, sl1⟩ := e
    rw [eraseKey_cons]
    by_cases h : k1 = k
    · rw [if_pos h, ih, ObjectVersionMap.findSlice,
        if_neg (by rw [h]; exact fun hh => hne hh.symm)]
    · rw [if_neg h, ObjectVersionMap.findSlice, ObjectVersionMap.findSlice]
      by_cases h2 : k1 = k'
      · rw [if_pos h2, if_pos h2]
      · rw [if_neg h2, if_neg h2]
        exact ih

theorem keys_eraseKey_mem (m : ObjectVersionMap) (k k' : String) :
    k' ∈ (m.eraseKey k).keys ↔ k' ∈ m.keys ∧ k' ≠ k := by
  induction m with
  | nil => simp [ObjectVersionMap.eraseKey, ObjectVersionMap.keys]
  | cons e rest ih =>
    obtain ⟨k1, sl1⟩ := e
    rw [eraseKey_cons]
    by_cases h : k1 = k
    · rw [if_pos h]
      simp only [ObjectVersionMap.keys, List.map_cons, List.mem_cons] at ih ⊢
      rw [ih]
      subst h
      constructor
      · tauto
      · rintro ⟨hk | hk, hne⟩
        · exact absurd hk hne
        · exact ⟨hk, hne⟩
    · rw [if_neg h]
      simp only [ObjectVersionMap.keys, List.map_cons, List.mem_cons] at ih ⊢
      rw [ih]
      constructor
      · rintro (hk | ⟨hk, hne⟩)
        · exact ⟨Or.inl hk, by rw [hk]; exact h⟩
        · exact ⟨Or.inr hk, hne⟩
      · rintro ⟨hk | hk, hne⟩
        · exact Or.inl hk
        · exact Or.inr ⟨hk, hne⟩

theorem keys_eraseKey_nodup (m : ObjectVersionMap) (k : String)
    (hm : m.keys.Nodup) : (m.eraseKey k).keys.Nodup := by
  rw [ObjectVersionMap.eraseKey, ObjectVersionMap.keys]
  exact List.Nodup.sublist (List.Sublist.map Prod.fst (List.filter_sublist m)) hm

theorem eraseKey_of_not_mem (m : ObjectVersionMap) (k : String)
    (hk : k ∉ m.keys) : m.eraseKey k = m := by
  induction m with
  | nil => rfl
  | cons e rest ih =>
    obtain ⟨k1, sl1⟩ := e
    simp only [ObjectVersionMap.keys, List.map_cons, List.mem_cons, not_or] at hk
    rw [eraseKey_cons, if_neg (fun hh => hk.1 hh.symm),
      ih (fun hh => hk.2 (by simpa [ObjectVersionMap.keys] using hh))]

theorem size_eraseKey (m : ObjectVersionMap) (k : String) (hm : m.keys.Nodup)
    (hk : k ∈ m.keys) : (m.eraseKey k).size + 1 = m.size := by
  induction m with
  | nil => cases hk
  | cons e rest ih =>
    obtain ⟨k1, sl1⟩ := e
    simp only [ObjectVersionMap.keys, List.map_cons, List.nodup_cons, List.mem_cons] at hm hk
    rw [eraseKey_cons]
    rcases hk with hk | hk
    · rw [if_pos hk.symm, eraseKey_of_not_mem rest k (by rw [hk]; exact hm.1)]
      rfl
    · rw [if_neg (fun hh => hm.1 (show k1 ∈ List.map Prod.fst rest by rw [hh]; exact hk))]
      have hrec := ih hm.2 hk
      simp only [ObjectVersionMap.size, List.length_cons] at hrec ⊢
      omega

theorem addEntry_eq (m : ObjectVersionMap) (e : String × ObjectVersion) :
    addEntry m e = m.setSlice e.1 (sortByTimestamp (m.sliceD e.1 ++ [e.2])) := by
  cases h : m.findSlice e.1 with
  | none => simp [addEntry, ObjectVersionMap.Add, ObjectVersionMap.sliceD, h]
  | some s => simp [addEntry, ObjectVersionMap.Add, ObjectVersionMap.sliceD, h]

theorem sliceD_setSlice_self (m : ObjectVersionMap) (k : String)
    (sl : List ObjectVersion) : (m.setSlice k sl).sliceD k = sl := by
  rw [ObjectVersionMap.sliceD, findSlice_setSlice_self]
  rfl

theorem sliceD_setSlice_ne (m : ObjectVersionMap) (k k' : String)
    (sl : List ObjectVersion) (hne : k' ≠ k) :
    (m.setSlice k sl).sliceD k' = m.sliceD k' := by
  rw [ObjectVersionMap.sliceD, findSlice_setSlice_ne m k k' sl hne, ObjectVersionMap.sliceD]

theorem sliceD_eraseKey_self (m : ObjectVersionMap) (k : String) :
    (m.eraseKey k).sliceD k = [] := by
  rw [ObjectVersionMap.sliceD, findSlice_eraseKey_self]
  rfl

theorem sliceD_eraseKey_ne (m : ObjectVersionMap) (k k' : String) (hne : k' ≠ k) :
    (m.eraseKey k).sliceD k' = m.sliceD k' := by
  rw [ObjectVersionMap.sliceD, findSlice_eraseKey_ne m k k' hne, ObjectVersionMap.sliceD]

theorem sliceD_addEntry_self (m : ObjectVersionMap) (e : String × ObjectVersion) :
    (addEntry m e).sliceD e.1 = sortByTimestamp (m.sliceD e.1 ++ [e.2]) := by
  rw [addEntry_eq, sliceD_setSlice_self]

theorem sliceD_addEntry_ne (m : ObjectVersionMap) (e : String × ObjectVersion)
    (k : String) (hne : k ≠ e.1) : (addEntry m e).sliceD k = m.sliceD k := by
  rw [addEntry_eq, sliceD_setSlice_ne m e.1 k _ hne]

theorem addEntry_sliceD_perm (m : ObjectVersionMap) (e : String × ObjectVersion)
    (k : String) :
    List.Perm ((addEntry m e).sliceD k)
      (m.sliceD k ++ (if e.1 = k then [e.2] else [])) := by
  by_cases h : e.1 = k
  · subst h
    rw [sliceD_addEntry_self, if_pos rfl]
    exact sortByTimestamp_perm _
  · rw [sliceD_addEntry_ne m e k (fun hh => h hh.symm), if_neg h, List.append_nil]

theorem keys_addEntry_mem (m : ObjectVersionMap) (e : String × ObjectVersion)
    (k : String) : k ∈ (addEntry m e).keys ↔ k ∈ m.keys ∨ k = e.1 := by
  rw [addEntry_eq]
  exact keys_setSlice_mem m e.1 k _

theorem keys_addEntry_nodup (m : ObjectVersionMap) (e : String × ObjectVersion)
    (hm : m.keys.Nodup) : (addEntry m e).keys.Nodup := by
  rw [addEntry_eq]
  exact keys_setSlice_nodup m e.1 _ hm

theorem sortedSlices_addEntry (m : ObjectVersionMap) (e : String × ObjectVersion)
    (hm : SortedSlices m) : SortedSlices (addEntry m e) := by
  intro k
  by_cases h : k = e.1
  · subst h
    rw [sliceD_addEntry_self]
    exact sortByTimestamp_sorted _
  · rw [sliceD_addEntry_ne m e k h]
    exact hm k

theorem size_addEntry_le (m : ObjectVersionMap) (e : String × ObjectVersion) :
    (addEntry m e).size ≤ m.size + 1 := by
  rw [addEntry_eq, size_setSlice]
  by_cases h : e.1 ∈ m.keys
  · rw [if_pos h]; omega
  · rw [if_neg h]

theorem foldl_addEntry_sliceD_perm (es : List (String × ObjectVersion)) :
    ∀ (m : ObjectVersionMap) (k : String),
      List.Perm ((es.foldl addEntry m).sliceD k)
        (m.sliceD k ++ (es.filter (fun e => decide (e.1 = k))).map Prod.snd) := by
  induction es with
  | nil => intro m k; simp
  | cons e t ih =>
    intro m k
    rw [List.foldl_cons, List.filter_cons]
    by_cases h : e.1 = k
    · have h2 := addEntry_sliceD_perm m e k
      rw [if_pos h] at h2
      have h3 := (ih (addEntry m e) k).trans (h2.append_right _)
      simp only [h, decide_True, if_true]
      refine h3.trans ?_
      rw [List.append_assoc, List.map_cons]
      rfl
    · have h2 := addEntry_sliceD_perm m e k
      rw [if_neg h, List.append_nil] at h2
      have h3 := (ih (addEntry m e) k).trans (h2.append_right _)
      simp only [h, decide_False, if_false]
      exact h3

theorem foldl_addEntry_keys_mem (es : List (String × ObjectVersion)) :
    ∀ (m : ObjectVersionMap) (k : String),
      k ∈ (es.foldl addEntry m).keys ↔ k ∈ m.keys ∨ k ∈ es.map Prod.fst := by
  induction es with
  | nil => intro m k; simp
  | cons e t ih =>
    intro m k
    rw [List.foldl_cons, ih (addEntry m e) k, keys_addEntry_mem, List.map_cons,
      List.mem_cons]
    tauto

theorem foldl_addEntry_nodup (es : List (String × ObjectVersion)) :
    ∀ (m : ObjectVersionMap), m.keys.Nodup → (es.foldl addEntry m).keys.Nodup := by
  induction es with
  | nil => intro m hm; exact hm
  | cons e t ih =>
    intro m hm
    exact ih (addEntry m e) (keys_addEntry_nodup m e hm)

theorem foldl_addEntry_sorted (es : List (String × ObjectVersion)) :
    ∀ (m : ObjectVersionMap), SortedSlices m → SortedSlices (es.foldl addEntry m) := by
  induction es with
  | nil => intro m hm; exact hm
  | cons e t ih =>
    intro m hm
    exact ih (addEntry m e) (sortedSlices_addEntry m e hm)

theorem foldl_addEntry_size (es : List (String × ObjectVersion)) :
    ∀ (m : ObjectVersionMap), (es.foldl addEntry m).size ≤ m.size + es.length := by
  induction es with
  | nil => intro m; simp [ObjectVersionMap.size]
  | cons e t ih =>
    intro m
    have h1 := ih (addEntry m e)
    have h2 := size_addEntry_le m e
    rw [List.foldl_cons]
    calc (t.foldl addEntry (addEntry m e)).size ≤ (addEntry m e).size + t.length := h1
    _ ≤ m.size + 1 + t.length := by omega
    _ = m.size + (e :: t).length := by rw [List.length_cons]; omega

theorem sortedSlices_empty : SortedSlices ObjectVersionMap.empty := by
  intro k
  exact List.Pairwise.nil

/-- C8: after any sequence of `Add` calls on a (freshly created) version map,
in any insertion order, the slice stored under every key is non-decreasing by
timestamp: every `Add` re-sorts the touched slice and leaves the others
unchanged. -/
theorem claim_C8_sort_invariant (calls : List (String × ObjectVersion)) (k : String) :
    SortedTs ((applyAdds calls).sliceD k) :=
  foldl_addEntry_sorted calls ObjectVersionMap.empty sortedSlices_empty k

/-! Lemmas about the lexicographic key order. -/

theorem keyLeB_refl (as : List Char) : keyLeB as as = true := by
  induction as with
  | nil => rfl
  | cons a t ih =>
    rw [keyLeB]
    simp [ih]

theorem keyLeB_total (as : List Char) : ∀ bs, keyLeB as bs = true ∨ keyLeB bs as = true := by
  induction as with
  | nil => intro bs; left; rfl
  | cons a t ih =>
    intro bs
    cases bs with
    | nil => right; rfl
    | cons b u =>
      rw [keyLeB, keyLeB]
      rcases Nat.lt_trichotomy a.toNat b.toNat with h | h | h
      · left; rw [if_pos h]
      · have h1 : ¬ a.toNat < b.toNat := by omega
        have h2 : ¬ b.toNat < a.toNat := by omega
        rw [if_neg h1, if_neg h2, if_neg h2, if_neg h1]
        exact ih u
      · right; rw [if_pos h]

theorem keyLeB_trans (as : List Char) :
    ∀ bs cs, keyLeB as bs = true → keyLeB bs cs = true → keyLeB as cs = true := by
  induction as with
  | nil => intro bs cs h1 h2; rfl
  | cons a t ih =>
    intro bs cs h1 h2
    cases bs with
    | nil => simp [keyLeB] at h1
    | cons b u =>
      cases cs with
      | nil => simp [keyLeB] at h2
      | cons c v =>
        rw [keyLeB] at h1 h2 ⊢
        by_cases hab : a.toNat < b.toNat
        · by_cases hbc : b.toNat < c.toNat
          · rw [if_pos (by omega : a.toNat < c.toNat)]
          · by_cases hcb : c.toNat < b.toNat
            · simp [hbc, hcb] at h2
            · rw [if_pos (by omega : a.toNat < c.toNat)]
        · by_cases hba : b.toNat < a.toNat
          · simp [hab, hba] at h1
          · by_cases hbc : b.toNat < c.toNat
            · rw [if_pos (by omega : a.toNat < c.toNat)]
            · by_cases hcb : c.toNat < b.toNat
              · simp [hbc, hcb] at h2
              · have h1t : keyLeB t u = true := by simpa [hab, hba] using h1
                have h2t : keyLeB u v = true := by simpa [hbc, hcb] using h2
                rw [if_neg (by omega : ¬ a.toNat < c.toNat),
                  if_neg (by omega : ¬ c.toNat < a.toNat)]
                exact ih u v h1t h2t

theorem keyLeB_antisymm (as : List Char) :
    ∀ bs, keyLeB as bs = true → keyLeB bs as = true → as = bs := by
  induction as with
  | nil =>
    intro bs h1 h2
    cases bs with
    | nil => rfl
    | cons b u => simp [keyLeB] at h2
  | cons a t ih =>
    intro bs h1 h2
    cases bs with
    | nil => simp [keyLeB] at h1
    | cons b u =>
      rw [keyLeB] at h1 h2
      by_cases hab : a.toNat < b.toNat
      · rw [if_neg (by omega : ¬ b.toNat < a.toNat), if_pos hab] at h2
        simp at h2
      · by_cases hba : b.toNat < a.toNat
        · simp [hab, hba] at h1
        · have hc : a = b := Char.ext (UInt32.ext (by omega : a.toNat = b.toNat))
          have h1t : keyLeB t u = true := by simpa [hab, hba] using h1
          have h2t : keyLeB u t = true := by simpa [hab, hba] using h2
          rw [hc, ih u h1t h2t]

theorem strLe_refl (a : String) : strLe a a := keyLeB_refl a.data

theorem strLe_total (a b : String) : strLe a b ∨ strLe b a := keyLeB_total a.data b.data

theorem strLe_trans {a b c : String} (h1 : strLe a b) (h2 : strLe b c) : strLe a c :=
  keyLeB_trans a.data b.data c.data h1 h2

theorem strLe_antisymm {a b : String} (h1 : strLe a b) (h2 : strLe b a) : a = b := by
  have hd := keyLeB_antisymm a.data b.data h1 h2
  cases a with
  | mk da =>
    cases b with
    | mk db =>
      simp only [String.data] at hd
      rw [hd]

theorem minKey_le_left (a b : String) : strLe (minKey a b) a := by
  rw [minKey]
  by_cases h : keyLeB a.data b.data = true
  · rw [if_pos h]; exact strLe_refl a
  · rw [if_neg h]
    rcases keyLeB_total a.data b.data with hh | hh
    · exact absurd hh h
    · exact hh

theorem minKey_le_right (a b : String) : strLe (minKey a b) b := by
  rw [minKey]
  by_cases h : keyLeB a.data b.data = true
  · rw [if_pos h]; exact h
  · rw [if_neg h]; exact strLe_refl b

theorem minKey_eq_or (a b : String) : minKey a b = a ∨ minKey a b = b := by
  rw [minKey]
  by_cases h : keyLeB a.data b.data = true
  · left; rw [if_pos h]
  · right; rw [if_neg h]

theorem foldl_minKey_mem (ks : List String) :
    ∀ k, ks.foldl minKey k = k ∨ ks.foldl minKey k ∈ ks := by
  induction ks with
  | nil => intro k; left; rfl
  | cons k1 t ih =>
    intro k
    rw [List.foldl_cons]
    rcases ih (minKey k k1) with h | h
    · rcases minKey_eq_or k k1 with h2 | h2
      · left; rw [h, h2]
      · right; rw [h, h2]; exact List.mem_cons_self _ _
    · right; exact List.mem_cons_of_mem _ h

theorem foldl_minKey_le (ks : List String) :
    ∀ k, strLe (ks.foldl minKey k) k ∧ ∀ x ∈ ks, strLe (ks.foldl minKey k) x := by
  induction ks with
  | nil =>
    intro k
    exact ⟨strLe_refl k, by intro x hx; cases hx⟩
  | cons k1 t ih =>
    intro k
    rw [List.foldl_cons]
    obtain ⟨h1, h2⟩ := ih (minKey k k1)
    refine ⟨strLe_trans h1 (minKey_le_left k k1), ?_⟩
    intro x hx
    rcases List.mem_cons.mp hx with hx | hx
    · rw [hx]; exact strLe_trans h1 (minKey_le_right k k1)
    · exact h2 x hx

theorem firstMapKey_mem (m : ObjectVersionMap) (hm : m ≠ []) : firstMapKey m ∈ m.keys := by
  cases m with
  | nil => exact absurd rfl hm
  | cons e rest =>
    have he : firstMapKey (e :: rest) = (rest.map Prod.fst).foldl minKey e.1 := rfl
    rw [he]
    rcases foldl_minKey_mem (rest.map Prod.fst) e.1 with h | h
    · rw [h]
      simp [ObjectVersionMap.keys]
    · simp only [ObjectVersionMap.keys, List.map_cons, List.mem_cons]
      exact Or.inr h

theorem firstMapKey_le (m : ObjectVersionMap) : ∀ x ∈ m.keys, strLe (firstMapKey m) x := by
  cases m with
  | nil => intro x hx; simp [ObjectVersionMap.keys] at hx
  | cons e rest =>
    intro x hx
    have he : firstMapKey (e :: rest) = (rest.map Prod.fst).foldl minKey e.1 := rfl
    rw [he]
    obtain ⟨h1, h2⟩ := foldl_minKey_le (rest.map Prod.fst) e.1
    simp only [ObjectVersionMap.keys, List.map_cons, List.mem_cons] at hx
    rcases hx with hx | hx
    · rw [hx]; exact h1
    · exact h2 x hx

theorem exists_ne_of_nodup (l : List String) (hl : l.Nodup) (h2 : 1 < l.length)
    (k : String) : ∃ x ∈ l, x ≠ k := by
  cases l with
  | nil => simp at h2
  | cons a t =>
    cases t with
    | nil => simp at h2
    | cons b u =>
      have hab : a ≠ b := by
        rcases List.nodup_cons.mp hl with ⟨ha, _⟩
        exact fun hh => ha (by rw [hh]; exact List.mem_cons_self _ _)
      by_cases hak : a = k
      · exact ⟨b, by simp, fun hbk => hab (by rw [hak, hbk])⟩
      · exact ⟨a, by simp, hak⟩

/-! Lemmas about the page-fetch loop and the iterator. -/

theorem pagesEntries_cons (p : Page) (rest : List Page) :
    pagesEntries (p :: rest) = p.entries ++ pagesEntries rest := by
  rw [pagesEntries, List.map_cons, List.flatten_cons]
  rfl

theorem pagesKeys_cons (p : Page) (rest : List Page) :
    pagesKeys (p :: rest) = p.entries.map Prod.fst ++ pagesKeys rest := by
  rw [pagesKeys, pagesEntries_cons, List.map_append]
  rfl

theorem recordsOf_cons (p : Page) (rest : List Page) (k : String) :
    recordsOf (p :: rest) k =
      ((p.entries.filter (fun e => decide (e.1 = k))).map Prod.snd) ++ recordsOf rest k := by
  rw [recordsOf, pagesEntries_cons, List.filter_append, List.map_append]
  rfl

theorem addPage_sliceD_perm (m : ObjectVersionMap) (p : Page) (k : String) :
    List.Perm ((addPage m p).sliceD k)
      (m.sliceD k ++ (p.entries.filter (fun e => decide (e.1 = k))).map Prod.snd) :=
  foldl_addEntry_sliceD_perm p.entries m k

theorem addPage_keys_mem (m : ObjectVersionMap) (p : Page) (k : String) :
    k ∈ (addPage m p).keys ↔ k ∈ m.keys ∨ k ∈ p.entries.map Prod.fst :=
  foldl_addEntry_keys_mem p.entries m k

theorem addPage_nodup (m : ObjectVersionMap) (p : Page) (hm : m.keys.Nodup) :
    (addPage m p).keys.Nodup :=
  foldl_addEntry_nodup p.entries m hm

theorem addPage_sorted (m : ObjectVersionMap) (p : Page) (hm : SortedSlices m) :
    SortedSlices (addPage m p) :=
  foldl_addEntry_sorted p.entries m hm

theorem addPage_size_le (m : ObjectVersionMap) (p : Page) :
    (addPage m p).size ≤ m.size + p.entries.length :=
  foldl_addEntry_size p.entries m

theorem fetchLoop_sliceD_perm (pages : List Page) :
    ∀ (m : ObjectVersionMap) (k : String),
      List.Perm ((fetchLoop pages m).2.sliceD k ++ recordsOf (fetchLoop pages m).1 k)
        (m.sliceD k ++ recordsOf pages k) := by
  induction pages with
  | nil => intro m k; exact List.Perm.refl _
  | cons p rest ih =>
    intro m k
    rw [fetchLoop]
    by_cases h : m.size ≤ 1
    · rw [if_pos h]
      have h1 := ih (addPage m p) k
      have h3 := (addPage_sliceD_perm m p k).append_right (recordsOf rest k)
      rw [List.append_assoc] at h3
      rw [recordsOf_cons]
      exact h1.trans h3
    · rw [if_neg h]

theorem fetchLoop_keys_mem (pages : List Page) :
    ∀ (m : ObjectVersionMap) (k : String),
      (k ∈ (fetchLoop pages m).2.keys ∨ k ∈ pagesKeys (fetchLoop pages m).1) ↔
        (k ∈ m.keys ∨ k ∈ pagesKeys pages) := by
  induction pages with
  | nil => intro m k; exact Iff.rfl
  | cons p rest ih =>
    intro m k
    rw [fetchLoop]
    by_cases h : m.size ≤ 1
    · rw [if_pos h, ih (addPage m p) k, addPage_keys_mem, pagesKeys_cons, List.mem_append]
      tauto
    · rw [if_neg h]

theorem fetchLoop_nodup (pages : List Page) :
    ∀ (m : ObjectVersionMap), m.keys.Nodup → (fetchLoop pages m).2.keys.Nodup := by
  induction pages with
  | nil => intro m hm; exact hm
  | cons p rest ih =>
    intro m hm
    rw [fetchLoop]
    by_cases h : m.size ≤ 1
    · rw [if_pos h]
      exact ih (addPage m p) (addPage_nodup m p hm)
    · rw [if_neg h]
      exact hm

theorem fetchLoop_sortedSlices (pages : List Page) :
    ∀ (m : ObjectVersionMap), SortedSlices m → SortedSlices (fetchLoop pages m).2 := by
  induction pages with
  | nil => intro m hm; exact hm
  | cons p rest ih =>
    intro m hm
    rw [fetchLoop]
    by_cases h : m.size ≤ 1
    · rw [if_pos h]
      exact ih (addPage m p) (addPage_sorted m p hm)
    · rw [if_neg h]
      exact hm

theorem fetchLoop_exit (pages : List Page) :
    ∀ (m : ObjectVersionMap),
      (fetchLoop pages m).1 = [] ∨ 1 < (fetchLoop pages m).2.size := by
  induction pages with
  | nil => intro m; exact Or.inl rfl
  | cons p rest ih =>
    intro m
    rw [fetchLoop]
    by_cases h : m.size ≤ 1
    · rw [if_pos h]
      exact ih (addPage m p)
    · rw [if_neg h]
      exact Or.inr (show 1 < m.size by omega)

theorem fetchLoop_pagesSorted (pages : List Page) :
    ∀ (m : ObjectVersionMap), PagesSorted pages → PagesSorted (fetchLoop pages m).1 := by
  induction pages with
  | nil => intro m hps; exact hps
  | cons p rest ih =>
    intro m hps
    rw [fetchLoop]
    by_cases h : m.size ≤ 1
    · rw [if_pos h]
      exact ih (addPage m p) (List.pairwise_cons.mp hps).2
    · rw [if_neg h]
      exact hps

theorem fetchLoop_keysBounded (pages : List Page) :
    ∀ (m : ObjectVersionMap), PagesSorted pages → KeysBounded m pages →
      KeysBounded (fetchLoop pages m).2 (fetchLoop pages m).1 := by
  induction pages with
  | nil => intro m _ hkb; exact hkb
  | cons p rest ih =>
    intro m hps hkb
    rw [fetchLoop]
    by_cases h : m.size ≤ 1
    · rw [if_pos h]
      refine ih (addPage m p) (List.pairwise_cons.mp hps).2 ?_
      intro k hk b hb
      rcases (addPage_keys_mem m p k).mp hk with hk2 | hk2
      · exact hkb k hk2 b (by rw [pagesEntries_cons]; exact List.mem_append_right _ hb)
      · rcases List.mem_map.mp hk2 with ⟨a, ha, hak⟩
        rcases List.mem_flatten.mp hb with ⟨l, hl, hbl⟩
        rcases List.mem_map.mp hl with ⟨q, hq, hql⟩
        have hrel := (List.pairwise_cons.mp hps).1 q hq a ha b (by rw [hql]; exact hbl)
        rw [← hak]
        exact hrel
    · rw [if_neg h]
      exact hkb

theorem fetchLoop_fuel (pages : List Page) :
    ∀ (m : ObjectVersionMap),
      ((fetchLoop pages m).1.map (fun p => p.entries.length)).sum +
          (fetchLoop pages m).1.length + (fetchLoop pages m).2.size ≤
        (pages.map (fun p => p.entries.length)).sum + pages.length + m.size := by
  induction pages with
  | nil => intro m; exact Nat.le_refl _
  | cons p rest ih =>
    intro m
    rw [fetchLoop]
    by_cases h : m.size ≤ 1
    · rw [if_pos h]
      have h1 := ih (addPage m p)
      have h2 := addPage_size_le m p
      simp only [List.map_cons, List.sum_cons, List.length_cons]
      omega
    · rw [if_neg h]

theorem Next_mk_none (pages : List Page) (pending : ObjectVersionMap)
    (hz : (fetchLoop pages pending).2.size = 0) :
    ListIterator.Next ⟨pages, pending⟩ =
      (none, ⟨(fetchLoop pages pending).1, (fetchLoop pages pending).2⟩) := by
  simp [ListIterator.Next, hz]

theorem Next_mk_some (pages : List Page) (pending : ObjectVersionMap)
    (hz : ¬ (fetchLoop pages pending).2.size = 0) :
    ListIterator.Next ⟨pages, pending⟩ =
      (some (firstMapKey (fetchLoop pages pending).2,
          (fetchLoop pages pending).2.sliceD (firstMapKey (fetchLoop pages pending).2)),
        ⟨(fetchLoop pages pending).1,
          (fetchLoop pages pending).2.eraseKey
            (firstMapKey (fetchLoop pages pending).2)⟩) := by
  simp [ListIterator.Next, hz]

theorem drain_master :
    ∀ (n : Nat) (pages : List Page) (pending : ObjectVersionMap),
      ListIterator.fuel ⟨pages, pending⟩ ≤ n →
      pending.keys.Nodup → PagesSorted pages → KeysBounded pending pages →
      SortedSlices pending →
      List.Pairwise strLt ((drainFuel n ⟨pages, pending⟩).map Prod.fst) ∧
      (∀ k, k ∈ (drainFuel n ⟨pages, pending⟩).map Prod.fst ↔
        (k ∈ pending.keys ∨ k ∈ pagesKeys pages)) ∧
      (∀ k vs, (k, vs) ∈ drainFuel n ⟨pages, pending⟩ →
        List.Perm vs (pending.sliceD k ++ recordsOf pages k) ∧ SortedTs vs) := by
  intro n
  induction n with
  | zero =>
    intro pages pending hf hnodup hps hkb hss
    have hf0 : (pages.map (fun p => p.entries.length)).sum + pages.length +
        pending.length ≤ 0 := hf
    have hpg : pages = [] := by
      have hh : pages.length = 0 := by omega
      exact List.length_eq_zero.mp hh
    have hpd : pending = [] := by
      have hh : pending.length = 0 := by omega
      exact List.length_eq_zero.mp hh
    refine ⟨List.Pairwise.nil, ?_, ?_⟩
    · intro k
      rw [drainFuel]
      simp only [List.map_nil]
      constructor
      · intro hh; exact absurd hh (List.not_mem_nil k)
      · rintro (hh | hh)
        · rw [hpd] at hh; simp [ObjectVersionMap.keys] at hh
        · rw [hpg] at hh; simp [pagesKeys, pagesEntries] at hh
    · intro k vs hkv
      rw [drainFuel] at hkv
      exact absurd hkv (List.not_mem_nil _)
  | succ n ihn =>
    intro pages pending hf hnodup hps hkb hss
    rcases hfetch : fetchLoop pages pending with ⟨P, M⟩
    by_cases hz : M.size = 0
    · -- the fetch loop drained everything: end of sequence
      have hnext : ListIterator.Next ⟨pages, pending⟩ = (none, ⟨P, M⟩) := by
        have h := Next_mk_none pages pending (by rw [hfetch]; exact hz)
        rw [hfetch] at h
        exact h
      have hdf : drainFuel (n + 1) ⟨pages, pending⟩ = [] := by
        rw [drainFuel, hnext]
      have hm0 : M = [] := List.length_eq_zero.mp hz
      have hp0 : P = [] := by
        have h : P = [] ∨ 1 < M.size := by
          have h2 := fetchLoop_exit pages pending
          rw [hfetch] at h2
          exact h2
        rcases h with h | h
        · exact h
        · exact absurd h (by omega)
      have hkmem : ∀ k, (k ∈ M.keys ∨ k ∈ pagesKeys P) ↔
          (k ∈ pending.keys ∨ k ∈ pagesKeys pages) := by
        intro k
        have h := fetchLoop_keys_mem pages pending k
        rw [hfetch] at h
        exact h
      refine ⟨by rw [hdf]; exact List.Pairwise.nil, ?_, ?_⟩
      · intro k
        rw [hdf]
        simp only [List.map_nil]
        constructor
        · intro hh; exact absurd hh (List.not_mem_nil k)
        · intro hh
          rcases (hkmem k).mpr hh with hh2 | hh2
          · rw [hm0] at hh2; simp [ObjectVersionMap.keys] at hh2
          · rw [hp0] at hh2; simp [pagesKeys, pagesEntries] at hh2
      · intro k vs hkv
        rw [hdf] at hkv
        exact absurd hkv (List.not_mem_nil _)
    · -- a key is emitted
      have hMnodup : M.keys.Nodup := by
        have h := fetchLoop_nodup pages pending hnodup
        rw [hfetch] at h
        exact h
      have hMsorted : SortedSlices M := by
        have h := fetchLoop_sortedSlices pages pending hss
        rw [hfetch] at h
        exact h
      have hPsorted : PagesSorted P := by
        have h := fetchLoop_pagesSorted pages pending hps
        rw [hfetch] at h
        exact h
      have hPMkb : KeysBounded M P := by
        have h := fetchLoop_keysBounded pages pending hps hkb
        rw [hfetch] at h
        exact h
      have hexit : P = [] ∨ 1 < M.size := by
        have h := fetchLoop_exit pages pending
        rw [hfetch] at h
        exact h
      have hperm : ∀ k, List.Perm (M.sliceD k ++ recordsOf P k)
          (pending.sliceD k ++ recordsOf pages k) := by
        intro k
        have h := fetchLoop_sliceD_perm pages pending k
        rw [hfetch] at h
        exact h
      have hkmem : ∀ k, (k ∈ M.keys ∨ k ∈ pagesKeys P) ↔
          (k ∈ pending.keys ∨ k ∈ pagesKeys pages) := by
        intro k
        have h := fetchLoop_keys_mem pages pending k
        rw [hfetch] at h
        exact h
      have hfl : (P.map (fun p => p.entries.length)).sum + P.length + M.size ≤
          (pages.map (fun p => p.entries.length)).sum + pages.length + pending.size := by
        have h := fetchLoop_fuel pages pending
        rw [hfetch] at h
        exact h
      have hMne : M ≠ [] := fun hh => hz (by rw [hh]; rfl)
      have hkMmem : firstMapKey M ∈ M.keys := firstMapKey_mem M hMne
      have hkMle := firstMapKey_le M
      have hsafe : ∀ b ∈ pagesEntries P, strLt (firstMapKey M) b.1 := by
        intro b hb
        rcases hexit with hP0 | hsz
        · rw [hP0] at hb
          simp [pagesEntries] at hb
        · obtain ⟨k2, hk2mem, hk2ne⟩ := exists_ne_of_nodup M.keys hMnodup
            (by
              have hlen : M.keys.length = M.size := by
                simp [ObjectVersionMap.keys, ObjectVersionMap.size]
              omega)
            (firstMapKey M)
          have h1 : strLe (firstMapKey M) k2 := hkMle k2 hk2mem
          have h2 : strLe k2 b.1 := hPMkb k2 hk2mem b hb
          refine ⟨strLe_trans h1 h2, ?_⟩
          intro heq
          apply hk2ne
          have h2' : strLe k2 (firstMapKey M) := by rw [heq]; exact h2
          exact strLe_antisymm h2' h1
      have hrecP : recordsOf P (firstMapKey M) = [] := by
        rw [recordsOf]
        have hfil : (pagesEntries P).filter
            (fun e => decide (e.1 = firstMapKey M)) = [] := by
          rw [List.filter_eq_nil_iff]
          intro a ha
          simp only [decide_eq_true_eq]
          intro hh
          exact (hsafe a ha).2 hh.symm
        rw [hfil]
        rfl
      have hvs : List.Perm (M.sliceD (firstMapKey M))
          (pending.sliceD (firstMapKey M) ++ recordsOf pages (firstMapKey M)) := by
        have h := hperm (firstMapKey M)
        rw [hrecP, List.append_nil] at h
        exact h
      have hfuel' : ListIterator.fuel ⟨P, M.eraseKey (firstMapKey M)⟩ ≤ n := by
        have hsz := size_eraseKey M (firstMapKey M) hMnodup hkMmem
        have hfin : (pages.map (fun p => p.entries.length)).sum + pages.length +
            pending.size ≤ n + 1 := hf
        show (P.map (fun p => p.entries.length)).sum + P.length +
          (M.eraseKey (firstMapKey M)).size ≤ n
        omega
      have hinvN : (M.eraseKey (firstMapKey M)).keys.Nodup :=
        keys_eraseKey_nodup M _ hMnodup
      have hinvK : KeysBounded (M.eraseKey (firstMapKey M)) P := by
        intro k' hk' b hb
        rcases (keys_eraseKey_mem M (firstMapKey M) k').mp hk' with ⟨hk'M, _⟩
        exact hPMkb k' hk'M b hb
      have hinvS : SortedSlices (M.eraseKey (firstMapKey M)) := by
        intro k'
        by_cases hkk : k' = firstMapKey M
        · rw [hkk, sliceD_eraseKey_self]
          exact List.Pairwise.nil
        · rw [sliceD_eraseKey_ne M _ k' hkk]
          exact hMsorted k'
      obtain ⟨ihA, ihB, ihC⟩ :=
        ihn P (M.eraseKey (firstMapKey M)) hfuel' hinvN hPsorted hinvK hinvS
      have hnext : ListIterator.Next ⟨pages, pending⟩ =
          (some (firstMapKey M, M.sliceD (firstMapKey M)),
            ⟨P, M.eraseKey (firstMapKey M)⟩) := by
        have h := Next_mk_some pages pending (by rw [hfetch]; exact hz)
        rw [hfetch] at h
        exact h
      have hdf : drainFuel (n + 1) ⟨pages, pending⟩ =
          (firstMapKey M, M.sliceD (firstMapKey M)) ::
            drainFuel n ⟨P, M.eraseKey (firstMapKey M)⟩ := by
        rw [drainFuel, hnext]
      have htailmem : ∀ x,
          x ∈ (drainFuel n ⟨P, M.eraseKey (firstMapKey M)⟩).map Prod.fst →
          (x ∈ M.keys ∧ x ≠ firstMapKey M) ∨ x ∈ pagesKeys P := by
        intro x hx
        rcases (ihB x).mp hx with hx2 | hx2
        · exact Or.inl ((keys_eraseKey_mem M _ x).mp hx2)
        · exact Or.inr hx2
      refine ⟨?_, ?_, ?_⟩
      · rw [hdf, List.map_cons]
        refine List.pairwise_cons.mpr ⟨?_, ihA⟩
        intro x hx
        rcases htailmem x hx with ⟨hxM, hxne⟩ | hxP
        · exact ⟨hkMle x hxM, fun hh => hxne hh.symm⟩
        · unfold pagesKeys at hxP
          rcases List.mem_map.mp hxP with ⟨b, hb, hbx⟩
          rw [← hbx]
          exact hsafe b hb
      · intro k'
        rw [hdf, List.map_cons, List.mem_cons, ← hkmem k']
        constructor
        · rintro (hh | hh)
          · left; rw [hh]; exact hkMmem
          · rcases htailmem k' hh with ⟨hxM, _⟩ | hxP
            · exact Or.inl hxM
            · exact Or.inr hxP
        · rintro (hh | hh)
          · by_cases hkk : k' = firstMapKey M
            · exact Or.inl hkk
            · right
              apply (ihB k').mpr
              exact Or.inl ((keys_eraseKey_mem M _ k').mpr ⟨hh, hkk⟩)
          · right
            apply (ihB k').mpr
            exact Or.inr hh
      · intro k' vs' hkv
        rw [hdf] at hkv
        rcases List.mem_cons.mp hkv with hkv | hkv
        · have hk1 : k' = firstMapKey M := congrArg Prod.fst hkv
          have hv1 : vs' = M.sliceD (firstMapKey M) := congrArg Prod.snd hkv
          rw [hk1, hv1]
          exact ⟨hvs, hMsorted _⟩
        · obtain ⟨hpermT, hsortT⟩ := ihC k' vs' hkv
          have hk'ne : k' ≠ firstMapKey M := by
            have hx : k' ∈ (drainFuel n ⟨P, M.eraseKey (firstMapKey M)⟩).map Prod.fst :=
              List.mem_map.mpr ⟨(k', vs'), hkv, rfl⟩
            rcases htailmem k' hx with ⟨_, hne⟩ | hxP
            · exact hne
            · unfold pagesKeys at hxP
              rcases List.mem_map.mp hxP with ⟨b, hb, hbx⟩
              intro hh
              exact (hsafe b hb).2 ((hbx.trans hh).symm)
          rw [sliceD_eraseKey_ne M (firstMapKey M) k' hk'ne] at hpermT
          exact ⟨hpermT.trans (hperm k'), hsortT⟩

theorem Next_eq_none (it : ListIterator)
    (hz : (fetchLoop it.pages it.pending).2.size = 0) :
    it.Next = (none, ⟨(fetchLoop it.pages it.pending).1,
      (fetchLoop it.pages it.pending).2⟩) := by
  simp [ListIterator.Next, hz]

theorem Next_eq_some (it : ListIterator)
    (hz : ¬ (fetchLoop it.pages it.pending).2.size = 0) :
    it.Next = (some (firstMapKey (fetchLoop it.pages it.pending).2,
        (fetchLoop it.pages it.pending).2.sliceD
          (firstMapKey (fetchLoop it.pages it.pending).2)),
      ⟨(fetchLoop it.pages it.pending).1,
        (fetchLoop it.pages it.pending).2.eraseKey
          (firstMapKey (fetchLoop it.pages it.pending).2)⟩) := by
  simp [ListIterator.Next, hz]

theorem Next_fst_none_iff (it : ListIterator) :
    (it.Next).1 = none ↔
      ((fetchLoop it.pages it.pending).2 = [] ∧
        (fetchLoop it.pages it.pending).1 = []) := by
  constructor
  · intro h
    by_cases hz : (fetchLoop it.pages it.pending).2.size = 0
    · refine ⟨List.length_eq_zero.mp hz, ?_⟩
      rcases fetchLoop_exit it.pages it.pending with he | he
      · exact he
      · exact absurd he (by omega)
    · rw [Next_eq_some it hz] at h
      simp at h
  · rintro ⟨hm, _⟩
    have hz : (fetchLoop it.pages it.pending).2.size = 0 := by rw [hm]; rfl
    rw [Next_eq_none it hz]

theorem Next_some_facts (it it2 : ListIterator) (kv : String × List ObjectVersion)
    (h : it.Next = (some kv, it2)) :
    (1 < (fetchLoop it.pages it.pending).2.size ∨ it2.pages = []) ∧
      kv.1 = firstMapKey (fetchLoop it.pages it.pending).2 := by
  by_cases hz : (fetchLoop it.pages it.pending).2.size = 0
  · rw [Next_eq_none it hz] at h
    simp at h
  · have hnx := Next_eq_some it hz
    rw [h] at hnx
    have hkv : kv = (firstMapKey (fetchLoop it.pages it.pending).2,
        (fetchLoop it.pages it.pending).2.sliceD
          (firstMapKey (fetchLoop it.pages it.pending).2)) := by
      have h1 := congrArg Prod.fst hnx
      simpa using h1
    have hit2 : it2 = ⟨(fetchLoop it.pages it.pending).1,
        (fetchLoop it.pages it.pending).2.eraseKey
          (firstMapKey (fetchLoop it.pages it.pending).2)⟩ := by
      have h2 := congrArg Prod.snd hnx
      simpa using h2
    constructor
    · rcases fetchLoop_exit it.pages it.pending with he | he
      · right
        rw [hit2]
        exact he
      · left
        exact he
    · rw [hkv]

/-- C6: over a key-sorted page stream, draining the iterator emits each
distinct key exactly once (the emitted key list has no duplicates and holds
exactly the keys of the pages), never emits a key early (each emitted history
already carries all of that key's records, so no later page can still hold
records for it); moreover `Next` emits only the smallest pending key and only
once the post-fetch pending map holds at least two keys or no pages remain,
and signals end of sequence exactly when the pending map is empty and no
pages remain. -/
theorem claim_C6_iterator_complete (pages : List Page) (hs : PagesSorted pages) :
    ((ListIterator.drain ⟨pages, ObjectVersionMap.empty⟩).map Prod.fst).Nodup ∧
    (∀ k, k ∈ (ListIterator.drain ⟨pages, ObjectVersionMap.empty⟩).map Prod.fst ↔
      k ∈ pagesKeys pages) ∧
    (∀ k vs, (k, vs) ∈ ListIterator.drain ⟨pages, ObjectVersionMap.empty⟩ →
      List.Perm vs (recordsOf pages k)) ∧
    (∀ it : ListIterator, (it.Next).1 = none ↔
      ((fetchLoop it.pages it.pending).2 = [] ∧
        (fetchLoop it.pages it.pending).1 = [])) ∧
    (∀ (it it2 : ListIterator) (kv : String × List ObjectVersion),
      it.Next = (some kv, it2) →
      (1 < (fetchLoop it.pages it.pending).2.size ∨ it2.pages = []) ∧
        kv.1 = firstMapKey (fetchLoop it.pages it.pending).2) := by
  obtain ⟨hA, hB, hC⟩ :=
    drain_master (ListIterator.fuel ⟨pages, ObjectVersionMap.empty⟩) pages
      ObjectVersionMap.empty (Nat.le_refl _) List.Pairwise.nil hs
      (by
        intro k hk b hb
        simp [ObjectVersionMap.keys, ObjectVersionMap.empty] at hk)
      sortedSlices_empty
  refine ⟨?_, ?_, ?_, Next_fst_none_iff, Next_some_facts⟩
  · exact List.Pairwise.imp (fun h => h.2) hA
  · intro k
    constructor
    · intro h
      rcases (hB k).mp h with h2 | h2
      · simp [ObjectVersionMap.keys, ObjectVersionMap.empty] at h2
      · exact h2
    · intro h
      exact (hB k).mpr (Or.inr h)
  · intro k vs h
    exact (hC k vs h).1

theorem claim_C6_iterator_complete_witness :
    PagesSorted samplePages ∧
    (((ListIterator.drain ⟨samplePages, ObjectVersionMap.empty⟩).map Prod.fst).Nodup ∧
    (∀ k, k ∈ (ListIterator.drain ⟨samplePages, ObjectVersionMap.empty⟩).map Prod.fst ↔
      k ∈ pagesKeys samplePages) ∧
    (∀ k vs, (k, vs) ∈ ListIterator.drain ⟨samplePages, ObjectVersionMap.empty⟩ →
      List.Perm vs (recordsOf samplePages k)) ∧
    (∀ it : ListIterator, (it.Next).1 = none ↔
      ((fetchLoop it.pages it.pending).2 = [] ∧
        (fetchLoop it.pages it.pending).1 = [])) ∧
    (∀ (it it2 : ListIterator) (kv : String × List ObjectVersion),
      it.Next = (some kv, it2) →
      (1 < (fetchLoop it.pages it.pending).2.size ∨ it2.pages = []) ∧
        kv.1 = firstMapKey (fetchLoop it.pages it.pending).2)) :=
  ⟨by decide, claim_C6_iterator_complete samplePages (by decide)⟩

/-- C7: for two key-sorted page partitions of the same multiset of version
and delete-marker records, draining the iterator over either partition emits
the same set of keys, and for each key histories of identical content (equal
as multisets of records; both are sorted by timestamp, the relative order of
equal-timestamp records being the only possible difference). -/
theorem claim_C7_pagination_safety (pages1 pages2 : List Page)
    (h1 : PagesSorted pages1) (h2 : PagesSorted pages2)
    (hsame : List.Perm (pagesEntries pages1) (pagesEntries pages2)) :
    (∀ k, k ∈ (ListIterator.drain ⟨pages1, ObjectVersionMap.empty⟩).map Prod.fst ↔
      k ∈ (ListIterator.drain ⟨pages2, ObjectVersionMap.empty⟩).map Prod.fst) ∧
    (∀ k vs1 vs2,
      (k, vs1) ∈ ListIterator.drain ⟨pages1, ObjectVersionMap.empty⟩ →
      (k, vs2) ∈ ListIterator.drain ⟨pages2, ObjectVersionMap.empty⟩ →
      List.Perm vs1 vs2) := by
  obtain ⟨hA1, hB1, hC1⟩ :=
    drain_master (ListIterator.fuel ⟨pages1, ObjectVersionMap.empty⟩) pages1
      ObjectVersionMap.empty (Nat.le_refl _) List.Pairwise.nil h1
      (by intro k hk b hb; simp [ObjectVersionMap.keys, ObjectVersionMap.empty] at hk)
      sortedSlices_empty
  obtain ⟨hA2, hB2, hC2⟩ :=
    drain_master (ListIterator.fuel ⟨pages2, ObjectVersionMap.empty⟩) pages2
      ObjectVersionMap.empty (Nat.le_refl _) List.Pairwise.nil h2
      (by intro k hk b hb; simp [ObjectVersionMap.keys, ObjectVersionMap.empty] at hk)
      sortedSlices_empty
  have hkeys : ∀ k, k ∈ pagesKeys pages1 ↔ k ∈ pagesKeys pages2 := by
    intro k
    exact (hsame.map Prod.fst).mem_iff
  have hrecs : ∀ k, List.Perm (recordsOf pages1 k) (recordsOf pages2 k) := by
    intro k
    exact ((hsame.filter (fun e => decide (e.1 = k))).map Prod.snd)
  constructor
  · intro k
    constructor
    · intro h
      rcases (hB1 k).mp h with hh | hh
      · simp [ObjectVersionMap.keys, ObjectVersionMap.empty] at hh
      · exact (hB2 k).mpr (Or.inr ((hkeys k).mp hh))
    · intro h
      rcases (hB2 k).mp h with hh | hh
      · simp [ObjectVersionMap.keys, ObjectVersionMap.empty] at hh
      · exact (hB1 k).mpr (Or.inr ((hkeys k).mpr hh))
  · intro k vs1 vs2 hm1 hm2
    have p1 : List.Perm vs1 (recordsOf pages1 k) := (hC1 k vs1 hm1).1
    have p2 : List.Perm vs2 (recordsOf pages2 k) := (hC2 k vs2 hm2).1
    exact p1.trans ((hrecs k).trans p2.symm)

theorem claim_C7_pagination_safety_witness :
    PagesSorted samplePagesOne ∧ PagesSorted samplePagesTwo ∧
    List.Perm (pagesEntries samplePagesOne) (pagesEntries samplePagesTwo) ∧
    ((∀ k, k ∈ (ListIterator.drain ⟨samplePagesOne, ObjectVersionMap.empty⟩).map Prod.fst ↔
      k ∈ (ListIterator.drain ⟨samplePagesTwo, ObjectVersionMap.empty⟩).map Prod.fst) ∧
    (∀ k vs1 vs2,
      (k, vs1) ∈ ListIterator.drain ⟨samplePagesOne, ObjectVersionMap.empty⟩ →
      (k, vs2) ∈ ListIterator.drain ⟨samplePagesTwo, ObjectVersionMap.empty⟩ →
      List.Perm vs1 vs2)) :=
  ⟨by decide, by decide, by decide,
    claim_C7_pagination_safety samplePagesOne samplePagesTwo
      (by decide) (by decide) (by decide)⟩

end S3VR
